import Mathlib

/-!
Shallow embedding of `src/crates/uv/src/requirements.rs`: reading heterogeneous
requirement sources, aggregating them into a `RequirementsSpecification`,
flattening self-referential extras, resolving names for unnamed requirements,
and loading lockfile preferences.

External crates (pep508 string grammar, wheel/sdist filename grammars,
`uv_normalize` name validation, `Upgrade` and `Preference` from the
surrounding tool) are not part of the source file; they are modelled from the
specification and marked as such in their doc comments.  All filesystem and
network effects are modelled by explicit oracle records (`World`, `FS`) passed
to the functions that perform them in the source.
-/

namespace UvReqs

/-- A normalized package name (`uv_normalize::PackageName`). -/
abbrev PackageName := String

/-- A normalized extra name (`uv_normalize::ExtraName`). -/
abbrev ExtraName := String

/-- The character list of a string (structural, kernel-reducible; the core
`String` recursors do not reduce definitionally, so all string manipulation
below works on `List Char`). -/
def chars (s : String) : List Char := s.data

/-- Rebuild a string from its characters. -/
def ofChars (l : List Char) : String := ⟨l⟩

/-- Split a character list at every occurrence of a separator character. -/
def splitOnChar (sep : Char) : List Char → List (List Char)
  | [] => [[]]
  | c :: rest =>
    if c = sep then [] :: splitOnChar sep rest
    else
      match splitOnChar sep rest with
      | [] => [[c]]
      | group :: groups => (c :: group) :: groups

/-- Does `pat` occur as a contiguous substring of `l`? -/
def hasSubstr (pat : List Char) : List Char → Bool
  | [] => pat.isEmpty
  | c :: rest => pat.isPrefixOf (c :: rest) || hasSubstr pat rest

/-- Split `l` at the first occurrence of `pat`, when there is one. -/
def breakOnSubstr (pat : List Char) : List Char → Option (List Char × List Char)
  | [] => none
  | c :: rest =>
    if pat.isPrefixOf (c :: rest) then some ([], (c :: rest).drop pat.length)
    else
      match breakOnSubstr pat rest with
      | none => none
      | some (before, after) => some (c :: before, after)

/-- Does `l` end with `pat`? -/
def endsWithChars (pat l : List Char) : Bool :=
  pat.reverse.isPrefixOf l.reverse

/-- ASCII lowercase of a character list. -/
def lowerChars (l : List Char) : List Char := l.map Char.toLower

/-- Characters legal in a package/extra name token. -/
def nameChar (c : Char) : Bool :=
  c.isAlphanum || c = '-' || c = '_' || c = '.'

/-- Modelled from the spec: `uv_normalize` validation of a package/extra name
token; an invalid token is a `NameError`.  Normalization lowercases and maps
`_`/`.` separators to `-`. -/
def validName (s : String) : Bool :=
  !(chars s).isEmpty && (chars s).all nameChar

/-- Modelled from the spec: name normalization used by `uv_normalize`. -/
def normalizeName (s : String) : String :=
  ofChars ((chars s).map (fun c => if c = '_' || c = '.' then '-' else c.toLower))

/-- A URL, reduced to the parts the source consults: scheme and path. -/
structure Url where
  scheme : String
  path : String
  deriving DecidableEq, Repr

/-- A version-or-URL constraint on a named requirement (`pep508_rs::VersionOrUrl`).
A specifier is a list of (operator, version) pairs. -/
inductive VersionOrUrl where
  | specifier (specs : List (String × String))
  | url (u : Url)
  deriving DecidableEq, Repr

/-- A named PEP 508 requirement (`pep508_rs::Requirement`). -/
structure Requirement where
  name : PackageName
  extras : List ExtraName
  version_or_url : Option VersionOrUrl
  marker : Option String
  deriving DecidableEq, Repr

/-- A URL-only requirement with no name yet (`pep508_rs::UnnamedRequirement`). -/
structure UnnamedRequirement where
  url : Url
  extras : List ExtraName
  marker : Option String
  deriving DecidableEq, Repr

/-- `pep508_rs::RequirementsTxtRequirement`: either named or unnamed. -/
inductive RequirementsTxtRequirement where
  | pep508 (r : Requirement)
  | unnamed (u : UnnamedRequirement)
  deriving DecidableEq, Repr

/-- An editable requirement, carried opaquely through aggregation
(`requirements_txt::EditableRequirement`). -/
abbrev EditableRequirement := String

/-- `requirements_txt::FindLink`. -/
inductive FindLink where
  | url (u : String)
  | path (p : String)
  deriving DecidableEq, Repr

/-- `distribution_types::FlatIndexLocation`. -/
inductive FlatIndexLocation where
  | url (u : String)
  | path (p : String)
  deriving DecidableEq, Repr

/-- `distribution_types::IndexUrl`, reduced to its textual form. -/
abbrev IndexUrl := String

/-- One parsed entry of a requirements file (`requirements_txt::RequirementEntry`):
the requirement plus whether it was marked editable. -/
structure RequirementEntry where
  requirement : RequirementsTxtRequirement
  editable : Bool
  deriving DecidableEq, Repr

/-- The parsed contents of a requirements file (`requirements_txt::RequirementsTxt`). -/
structure RequirementsTxt where
  requirements : List RequirementEntry
  constraints : List Requirement
  editables : List EditableRequirement
  index_url : Option IndexUrl
  extra_index_urls : List IndexUrl
  noIndex : Bool
  find_links : List FindLink
  deriving DecidableEq, Repr

/-- The `[project]` table of a parsed `pyproject.toml`
(`pyproject_toml::Project`); the external TOML parser makes `name` mandatory
whenever the table is present.  The optional-dependency map is an ordered
association list, mirroring `IndexMap`. -/
structure Project where
  name : String
  dependencies : Option (List Requirement)
  optional_dependencies : Option (List (String × List Requirement))
  deriving DecidableEq, Repr

/-- A parsed `pyproject.toml` (`pyproject_toml::PyProjectToml`), reduced to the
fields the source consults.  The poetry build-backend advisory only logs, so
the `build_system` field is omitted from the model. -/
structure PyProjectToml where
  project : Option Project
  deriving DecidableEq, Repr

/-- The errors the source can raise (all are `anyhow` errors in the source;
the constructors mirror the spec's taxonomy). -/
inductive Err where
  | parseError (text : String)
  | invalidName (text : String)
  | multipleIndexUrls (existing url : String)
  | unnamedConstraint (u : UnnamedRequirement)
  | unnamedOverride (u : UnnamedRequirement)
  | nameInference (u : UnnamedRequirement)
  | ioError (path : String)
  | preferenceError (r : RequirementsTxtRequirement)
  | outOfFuel
  deriving DecidableEq, Repr

/-- Modelled from the spec: `uv_normalize::PackageName::new` / `from_str`. -/
def PackageName.new (s : String) : Except Err PackageName :=
  if validName s then .ok (normalizeName s) else .error (.invalidName s)

/-- Modelled from the spec: `uv_normalize::ExtraName::from_str`. -/
def ExtraName.fromStr (s : String) : Except Err ExtraName :=
  if validName s then .ok (normalizeName s) else .error (.invalidName s)

/-- Does a literal look like a URL or local path rather than a bare name? -/
def isUrlLike (s : String) : Bool :=
  hasSubstr (chars "://") (chars s) || (chars "./").isPrefixOf (chars s) ||
    (chars "../").isPrefixOf (chars s) || (chars "/").isPrefixOf (chars s)

/-- Split a URL-like literal into scheme and path. -/
def parseUrl (s : String) : Url :=
  match breakOnSubstr (chars "://") (chars s) with
  | some (sch, rest) => { scheme := ofChars sch, path := ofChars rest }
  | none => { scheme := "file", path := s }

/-- Modelled from the spec: the external requirement-string parser
(`pep508_rs::RequirementsTxtRequirement::parse`), which distinguishes named
forms from URL-only ("unnamed") forms.  Named forms are restricted to
`name` or `name==version`. -/
def RequirementsTxtRequirement.parse (s : String) :
    Except Err RequirementsTxtRequirement :=
  if isUrlLike s then
    .ok (.unnamed { url := parseUrl s, extras := [], marker := none })
  else
    let name := (chars s).takeWhile nameChar
    let rest := (chars s).drop name.length
    if !validName (ofChars name) then .error (.parseError s)
    else if rest.isEmpty then
      .ok (.pep508 { name := normalizeName (ofChars name), extras := [],
                     version_or_url := none, marker := none })
    else if (chars "==").isPrefixOf rest then
      .ok (.pep508 { name := normalizeName (ofChars name), extras := [],
                     version_or_url := some (.specifier
                       [("==", ofChars (rest.drop 2))]),
                     marker := none })
    else .error (.parseError s)

/-- Modelled from the spec: `requirements_txt::EditableRequirement::parse`;
editables are carried opaquely. -/
def EditableRequirement.parse (s : String) : Except Err EditableRequirement :=
  .ok s

/-- `RequirementsSource`: the four kinds of requirement source. -/
inductive RequirementsSource where
  | package (name : String)
  | editable (name : String)
  | requirementsTxt (path : String)
  | pyprojectToml (path : String)
  deriving DecidableEq, Repr

/-- `ExtrasSpecification`. -/
inductive ExtrasSpecification where
  | none
  | all
  | some (extras : List ExtraName)
  deriving DecidableEq, Repr

/-- `ExtrasSpecification::contains`. -/
def ExtrasSpecification.contains : ExtrasSpecification → ExtraName → Bool
  | .all, _ => true
  | .none, _ => false
  | .some extras, name => extras.contains name

/-- `RequirementsSpecification`.  The `extras` field models the `FxHashSet` as
an insertion-ordered duplicate-free list. -/
structure RequirementsSpecification where
  project : Option PackageName
  requirements : List RequirementsTxtRequirement
  constraints : List Requirement
  overrides : List Requirement
  editables : List EditableRequirement
  extras : List ExtraName
  index_url : Option IndexUrl
  extra_index_urls : List IndexUrl
  noIndex : Bool
  find_links : List FlatIndexLocation
  deriving DecidableEq, Repr

/-- `RequirementsSpecification::default()`. -/
def emptySpec : RequirementsSpecification :=
  { project := none, requirements := [], constraints := [], overrides := [],
    editables := [], extras := [], index_url := none, extra_index_urls := [],
    noIndex := false, find_links := [] }

instance : Inhabited RequirementsSpecification := ⟨emptySpec⟩

/-- Set insertion for the `FxHashSet` model: append if absent. -/
def setInsert (l : List ExtraName) (x : ExtraName) : List ExtraName :=
  if x ∈ l then l else l ++ [x]

/-- Set extension for the `FxHashSet` model. -/
def setExtend (l xs : List ExtraName) : List ExtraName :=
  xs.foldl setInsert l

/-- The external world: parsed results of the files the source reads.
The functions model `RequirementsTxt::parse` and the pyproject TOML parse. -/
structure World where
  reqTxt : String → Except Err RequirementsTxt
  pyproject : String → Except Err PyProjectToml

/-- The result of one `flatten_extra::inner` loop: the flattened requirements
together with the visited set it threads through, or an error. -/
abbrev FlatRes := Except Err (List Requirement × List ExtraName)

/-- The per-requirement extras loop at expansion depth zero: an
already-visited extra is still skipped silently, but a fresh extra has no
expansion budget left.  `flatten_extra_terminates_nodup` shows the initial
budget always suffices, so this branch is unreachable from `flatten_extra`. -/
def flattenExtrasOfZero : List ExtraName → List ExtraName → FlatRes
  | [], seen => .ok ([], seen)
  | e :: more, seen =>
    if e ∈ seen then flattenExtrasOfZero more seen
    else .error .outOfFuel

/-- The requirements loop of `flatten_extra::inner`, parameterized by the
extras-expansion loop it invokes: a requirement whose name differs from the
owning project passes through unchanged; one naming the project has each of
its requested extras expanded in place.  The visited set (`seen`) is threaded
through, as the Rust `&mut FxHashSet` is. -/
def mkReqs (pn : PackageName)
    (exf : List ExtraName → List ExtraName → FlatRes) :
    List Requirement → List ExtraName → FlatRes
  | [], seen => .ok ([], seen)
  | r :: rest, seen =>
    if r.name = pn then
      match exf r.extras seen with
      | .error e => .error e
      | .ok (flat₁, seen₁) =>
        match mkReqs pn exf rest seen₁ with
        | .error e => .error e
        | .ok (flat₂, seen₂) => .ok (flat₁ ++ flat₂, seen₂)
    else
      match mkReqs pn exf rest seen with
      | .error e => .error e
      | .ok (flat, seen₁) => .ok (r :: flat, seen₁)

/-- The map loop of `flatten_extra::inner`, parameterized by the
requirements loop it invokes: every optional-dependency entry whose
normalized key equals the extra being expanded has its requirement list
recursively flattened; an invalid key is a hard error. -/
def mkEntries (pn : PackageName)
    (reqf : List Requirement → List ExtraName → FlatRes) :
    List (String × List Requirement) → ExtraName → List ExtraName → FlatRes
  | [], _, seen => .ok ([], seen)
  | (entryName, ereqs) :: restEntries, e, seen =>
    match ExtraName.fromStr entryName with
    | .error err => .error err
    | .ok normalized =>
      if normalized = e then
        match reqf ereqs seen with
        | .error err => .error err
        | .ok (flat₁, seen₁) =>
          match mkEntries pn reqf restEntries e seen₁ with
          | .error err => .error err
          | .ok (flat₂, seen₂) => .ok (flat₁ ++ flat₂, seen₂)
      else mkEntries pn reqf restEntries e seen

/-- The per-requirement extras loop of `flatten_extra::inner`, parameterized
by the map loop it invokes for a fresh extra: an already-visited extra is
skipped silently (`!seen.insert(extra)` → `continue`); a fresh one is first
inserted into the visited set, then its matching map entries are expanded. -/
def mkExtrasOf (extrasMap : List (String × List Requirement))
    (ent : List (String × List Requirement) → ExtraName → List ExtraName → FlatRes) :
    List ExtraName → List ExtraName → FlatRes
  | [], seen => .ok ([], seen)
  | e :: more, seen =>
    if e ∈ seen then mkExtrasOf extrasMap ent more seen
    else
      match ent extrasMap e (seen ++ [e]) with
      | .error err => .error err
      | .ok (flat₁, seen₁) =>
        match mkExtrasOf extrasMap ent more seen₁ with
        | .error err => .error err
        | .ok (flat₂, seen₂) => .ok (flat₁ ++ flat₂, seen₂)

/-- The extras loop of `flatten_extra::inner` at expansion depth `fuel`:
expanding a fresh extra descends one level.  The Rust recursion has no such
budget; it is the shallow embedding's termination measure, and
`flatten_extra_terminates_nodup` shows that the budget `flatten_extra`
supplies is never exhausted, because the visited set grows at every
descent. -/
def flattenExtrasOf (pn : PackageName)
    (extrasMap : List (String × List Requirement)) :
    Nat → List ExtraName → List ExtraName → FlatRes
  | 0 => flattenExtrasOfZero
  | fuel + 1 =>
    mkExtrasOf extrasMap
      (mkEntries pn (mkReqs pn (flattenExtrasOf pn extrasMap fuel)))

/-- The requirements loop of `flatten_extra::inner` at expansion depth
`fuel`. -/
def flattenReqs (pn : PackageName)
    (extrasMap : List (String × List Requirement)) (fuel : Nat) :
    List Requirement → List ExtraName → FlatRes :=
  mkReqs pn (flattenExtrasOf pn extrasMap fuel)

/-- The map loop of `flatten_extra::inner` at expansion depth `fuel`. -/
def flattenEntries (pn : PackageName)
    (extrasMap : List (String × List Requirement)) (fuel : Nat) :
    List (String × List Requirement) → ExtraName → List ExtraName → FlatRes :=
  mkEntries pn (flattenReqs pn extrasMap fuel)

/-- Every extra-name occurrence mentioned anywhere in the inputs of one
top-level flatten. -/
def mentionedExtras (requirements : List Requirement)
    (extrasMap : List (String × List Requirement)) : List ExtraName :=
  ((requirements ++ (extrasMap.map Prod.snd).flatten).map
      (fun r => r.extras)).flatten

/-- The number of extras mentioned in `U` that the visited set `seen` has not
yet recorded — the quantity that shrinks at every fresh expansion. -/
def newExtras (U seen : List ExtraName) : Nat :=
  (U.toFinset \ seen.toFinset).card

/-- The fuel budget for one top-level flatten: one more than the number of
extra-name occurrences mentioned anywhere in the inputs, an upper bound on
the number of distinct extras the visited set can ever receive. -/
def flattenFuel (requirements : List Requirement)
    (extrasMap : List (String × List Requirement)) : Nat :=
  (mentionedExtras requirements extrasMap).length + 1

/-- `flatten_extra`: flatten an optional-dependency group that may reference
the owning project's other groups, starting from an empty visited set. -/
def flatten_extra (pn : PackageName) (requirements : List Requirement)
    (extras : List (String × List Requirement)) : Except Err (List Requirement) :=
  match flattenReqs pn extras (flattenFuel requirements extras) requirements [] with
  | .error e => .error e
  | .ok (flattened, _) => .ok flattened

/-- The optional-dependencies loop of the `PyprojectToml` arm of
`from_source`: normalize each key, and when the extras selector contains it,
record it as used and append its flattened requirements. -/
def collectExtras (pn : PackageName) (extras : ExtrasSpecification)
    (optionalAll : List (String × List Requirement)) :
    List (String × List Requirement) → List ExtraName → List Requirement →
    Except Err (List ExtraName × List Requirement)
  | [], used, acc => .ok (used, acc)
  | (extraName, optionalReqs) :: rest, used, acc =>
    match ExtraName.fromStr extraName with
    | .error e => .error e
    | .ok normalized =>
      if extras.contains normalized then
        match flatten_extra pn optionalReqs optionalAll with
        | .error e => .error e
        | .ok flat =>
          collectExtras pn extras optionalAll rest (setInsert used normalized) (acc ++ flat)
      else collectExtras pn extras optionalAll rest used acc

/-- `RequirementsSpecification::from_source`: read one source into a
per-source specification. -/
def from_source (w : World) (source : RequirementsSource)
    (extras : ExtrasSpecification) : Except Err RequirementsSpecification :=
  match source with
  | .package name =>
    match RequirementsTxtRequirement.parse name with
    | .error e => .error e
    | .ok requirement =>
      .ok { project := none, requirements := [requirement], constraints := [],
            overrides := [], editables := [], extras := [], index_url := none,
            extra_index_urls := [], noIndex := false, find_links := [] }
  | .editable name =>
    match EditableRequirement.parse name with
    | .error e => .error e
    | .ok requirement =>
      .ok { project := none, requirements := [], constraints := [],
            overrides := [], editables := [requirement], extras := [],
            index_url := none, extra_index_urls := [], noIndex := false,
            find_links := [] }
  | .requirementsTxt path =>
    match w.reqTxt path with
    | .error e => .error e
    | .ok rt =>
      .ok { project := none,
            requirements := rt.requirements.map (fun entry => entry.requirement),
            constraints := rt.constraints,
            overrides := [],
            editables := rt.editables,
            extras := [],
            index_url := rt.index_url,
            extra_index_urls := rt.extra_index_urls,
            noIndex := rt.noIndex,
            find_links := rt.find_links.map (fun link =>
              match link with
              | .url u => FlatIndexLocation.url u
              | .path p => FlatIndexLocation.path p) }
  | .pyprojectToml path =>
    match w.pyproject path with
    | .error e => .error e
    | .ok pt =>
      match pt.project with
      | none =>
        .ok { project := none, requirements := [], constraints := [],
              overrides := [], editables := [], extras := [], index_url := none,
              extra_index_urls := [], noIndex := false, find_links := [] }
      | some project =>
        match PackageName.new project.name with
        | .error e => .error e
        | .ok parsedName =>
          let baseReqs := project.dependencies.getD []
          let expanded : Except Err (List ExtraName × List Requirement) :=
            match extras, project.optional_dependencies with
            | .none, _ => .ok ([], [])
            | _, Option.none => .ok ([], [])
            | ex, Option.some optional => collectExtras parsedName ex optional optional [] []
          match expanded with
          | .error e => .error e
          | .ok (usedExtras, extraReqs) =>
            .ok { project := some parsedName,
                  requirements :=
                    (baseReqs ++ extraReqs).map RequirementsTxtRequirement.pep508,
                  constraints := [], overrides := [], editables := [],
                  extras := usedExtras, index_url := none, extra_index_urls := [],
                  noIndex := false, find_links := [] }

/-- The index-configuration merge shared verbatim by all three role loops of
`from_sources`: a second explicit primary index URL is a hard error (with no
comparison of the two URLs), `no_index` flags OR together, extra index URLs
and find-links concatenate. -/
def mergeIndexes (spec source : RequirementsSpecification) :
    Except Err RequirementsSpecification :=
  match source.index_url with
  | some url =>
    match spec.index_url with
    | some existing => .error (.multipleIndexUrls existing url)
    | none =>
      .ok { spec with index_url := some url,
                      noIndex := spec.noIndex || source.noIndex,
                      extra_index_urls := spec.extra_index_urls ++ source.extra_index_urls,
                      find_links := spec.find_links ++ source.find_links }
  | none =>
    .ok { spec with noIndex := spec.noIndex || source.noIndex,
                    extra_index_urls := spec.extra_index_urls ++ source.extra_index_urls,
                    find_links := spec.find_links ++ source.find_links }

/-- One step of the requirements-role loop of `from_sources`: every field
extends its aggregate counterpart, the first non-empty project name wins. -/
def addRequirementsRole (spec source : RequirementsSpecification) :
    Except Err RequirementsSpecification :=
  mergeIndexes
    { spec with requirements := spec.requirements ++ source.requirements,
                constraints := spec.constraints ++ source.constraints,
                overrides := spec.overrides ++ source.overrides,
                extras := setExtend spec.extras source.extras,
                editables := spec.editables ++ source.editables,
                project := if spec.project.isNone then source.project else spec.project }
    source

/-- The per-requirement match of the constraints-role loop: a named
requirement is coerced to a constraint, an unnamed one is a hard error. -/
def constraintsOfReqs : List RequirementsTxtRequirement → Except Err (List Requirement)
  | [] => .ok []
  | .pep508 r :: rest =>
    match constraintsOfReqs rest with
    | .error e => .error e
    | .ok named => .ok (r :: named)
  | .unnamed u :: _ => .error (.unnamedConstraint u)

/-- The per-requirement match of the overrides-role loop. -/
def overridesOfReqs : List RequirementsTxtRequirement → Except Err (List Requirement)
  | [] => .ok []
  | .pep508 r :: rest =>
    match overridesOfReqs rest with
    | .error e => .error e
    | .ok named => .ok (r :: named)
  | .unnamed u :: _ => .error (.unnamedOverride u)

/-- One step of the constraints-role loop of `from_sources`: everything found
in the source is coerced into the aggregate's constraints. -/
def addConstraintsRole (spec source : RequirementsSpecification) :
    Except Err RequirementsSpecification :=
  match constraintsOfReqs source.requirements with
  | .error e => .error e
  | .ok named =>
    mergeIndexes
      { spec with constraints :=
          spec.constraints ++ named ++ source.constraints ++ source.overrides }
      source

/-- One step of the overrides-role loop of `from_sources`: everything found
in the source is coerced into the aggregate's overrides. -/
def addOverridesRole (spec source : RequirementsSpecification) :
    Except Err RequirementsSpecification :=
  match overridesOfReqs source.requirements with
  | .error e => .error e
  | .ok named =>
    mergeIndexes
      { spec with overrides :=
          spec.overrides ++ named ++ source.constraints ++ source.overrides }
      source

/-- One role loop of `from_sources`: read each source in order and fold its
per-source specification into the aggregate with the role's step function. -/
def foldRole (w : World) (extras : ExtrasSpecification)
    (step : RequirementsSpecification → RequirementsSpecification →
      Except Err RequirementsSpecification) :
    RequirementsSpecification → List RequirementsSource →
    Except Err RequirementsSpecification
  | spec, [] => .ok spec
  | spec, s :: rest =>
    match from_source w s extras with
    | .error e => .error e
    | .ok source =>
      match step spec source with
      | .error e => .error e
      | .ok spec' => foldRole w extras step spec' rest

/-- `RequirementsSpecification::from_sources`: fold the three ordered role
lists into one aggregate specification. -/
def from_sources (w : World)
    (requirements constraints overrides : List RequirementsSource)
    (extras : ExtrasSpecification) : Except Err RequirementsSpecification :=
  match foldRole w extras addRequirementsRole emptySpec requirements with
  | .error e => .error e
  | .ok spec₁ =>
    match foldRole w extras addConstraintsRole spec₁ constraints with
    | .error e => .error e
    | .ok spec₂ => foldRole w extras addOverridesRole spec₂ overrides

/-- The extension of a path (`std::path::Path::extension`): the part of the
last component after its final dot, absent for dotless components and for a
leading-dot-only hidden file. -/
def pathExtension (p : String) : Option String :=
  let comp := (splitOnChar '/' (chars p)).getLastD []
  let parts := splitOnChar '.' comp
  if parts.length ≥ 2 then
    if (parts.headD []).isEmpty && parts.length = 2 then none
    else some (ofChars (parts.getLastD []))
  else none

/-- `str::eq_ignore_ascii_case`, restricted to the ASCII strings used here. -/
def eqIgnoreAsciiCase (a b : String) : Bool :=
  lowerChars (chars a) = lowerChars (chars b)

/-- Modelled from the spec: `RemoteSource::filename` for a URL — the last
path segment, an error when it is empty. -/
def Url.filename (u : Url) : Except Err String :=
  let f := (splitOnChar '/' (chars u.path)).getLastD []
  if f.isEmpty then .error (.parseError u.path) else .ok (ofChars f)

/-- A parsed wheel filename (`distribution_filename::WheelFilename`), reduced
to the fields used here. -/
structure WheelFilename where
  name : PackageName
  version : String
  deriving DecidableEq, Repr

/-- Modelled from the spec: the wheel-archive filename grammar
(`WheelFilename::from_str`): `name-version(-build)?-python-abi-platform.whl`,
with a normalized name. -/
def WheelFilename.from_str (f : String) : Except Err WheelFilename :=
  if endsWithChars (chars ".whl") (lowerChars (chars f)) then
    let stem := (chars f).take ((chars f).length - 4)
    let parts := splitOnChar '-' stem
    if parts.length = 5 || parts.length = 6 then
      let n := ofChars (parts.headD [])
      if validName n then
        .ok { name := normalizeName n, version := ofChars (parts.getD 1 []) }
      else .error (.invalidName n)
    else .error (.parseError f)
  else .error (.parseError f)

/-- The source-archive suffixes recognized by the sdist filename grammar. -/
def sdistSuffixes : List String :=
  [".tar.gz", ".tar.bz2", ".tar.xz", ".tar", ".zip"]

/-- Modelled from the spec: the normalized source-distribution filename
grammar (`SourceDistFilename::parsed_normalized_filename`), yielding the
package name of a `name-version.<archive suffix>` filename, `none` when the
filename does not parse. -/
def sdistName (f : String) : Option PackageName :=
  match sdistSuffixes.find? (fun suffix =>
      endsWithChars (chars suffix) (chars f)) with
  | none => none
  | some suffix =>
    let stem := (chars f).take ((chars f).length - (chars suffix).length)
    let parts := splitOnChar '-' stem
    if parts.length ≥ 2 then
      let n := ofChars (List.intercalate (chars "-") parts.dropLast)
      if validName n then some (normalizeName n) else none
    else none

/-- Modelled from the spec: the local-directory metadata probes of the name
cascade (§4.4 step 3), each an oracle from a directory path to the name it
would yield: a `PKG-INFO` metadata name, a `pyproject.toml` PEP 621 project
name, a poetry tool name, a raw `setup.cfg` metadata name, and a raw
`setup.py` regex capture.  `exists` models `Path::exists`. -/
structure FS where
  pathExists : String → Bool
  pkgInfo : String → Option PackageName
  pyprojectName : String → Option PackageName
  poetryName : String → Option PackageName
  setupCfgName : String → Option String
  setupPyName : String → Option String

/-- `NamedRequirements::name_requirement`: the ordered name-inference cascade
for an unnamed requirement — wheel filename, then sdist filename, then (for
`file://` URLs only) the local metadata probes, first success winning. -/
def name_requirement (fs : FS) (requirement : UnnamedRequirement) :
    Except Err Requirement :=
  if (pathExtension requirement.url.path).any
      (fun ext => eqIgnoreAsciiCase ext "whl") then
    match requirement.url.filename with
    | .error e => .error e
    | .ok f =>
      match WheelFilename.from_str f with
      | .error e => .error e
      | .ok filename =>
        .ok { name := filename.name, extras := requirement.extras,
              version_or_url := some (.url requirement.url),
              marker := requirement.marker }
  else
    match requirement.url.filename.toOption.bind sdistName with
    | some name =>
      .ok { name := name, extras := requirement.extras,
            version_or_url := some (.url requirement.url),
            marker := requirement.marker }
    | none =>
      if requirement.url.scheme = "file" then
        let path := requirement.url.path
        if !fs.pathExists path then .error (.ioError path)
        else
          let hit : Option PackageName :=
            (fs.pkgInfo path).orElse (fun _ =>
              (fs.pyprojectName path).orElse (fun _ =>
                (fs.poetryName path).orElse (fun _ =>
                  ((fs.setupCfgName path).bind
                      (fun s => (PackageName.new s).toOption)).orElse (fun _ =>
                    (fs.setupPyName path).bind
                      (fun s => (PackageName.new s).toOption)))))
          match hit with
          | some name =>
            .ok { name := name, extras := requirement.extras,
                  version_or_url := some (.url requirement.url),
                  marker := requirement.marker }
          | none => .error (.nameInference requirement)
      else .error (.nameInference requirement)

/-- `NamedRequirements`: the aggregate with every requirement named. -/
structure NamedRequirements where
  project : Option PackageName
  requirements : List Requirement
  constraints : List Requirement
  overrides : List Requirement
  editables : List EditableRequirement
  index_url : Option IndexUrl
  extra_index_urls : List IndexUrl
  noIndex : Bool
  find_links : List FlatIndexLocation
  deriving DecidableEq, Repr

/-- `NamedRequirements::from_spec`: resolve every remaining unnamed
requirement through the name cascade and repackage the specification. -/
def NamedRequirements.from_spec (fs : FS) (spec : RequirementsSpecification) :
    Except Err NamedRequirements :=
  match spec.requirements.mapM (fun r =>
      (match r with
       | .pep508 r => .ok r
       | .unnamed u => name_requirement fs u : Except Err Requirement)) with
  | .error e => .error e
  | .ok reqs =>
    .ok { project := spec.project,
          requirements := reqs,
          constraints := spec.constraints,
          overrides := spec.overrides,
          editables := spec.editables,
          index_url := spec.index_url,
          extra_index_urls := spec.extra_index_urls,
          noIndex := spec.noIndex,
          find_links := spec.find_links }

/-- Modelled from the spec: the `Upgrade` strategy of the surrounding tool
(`crate::commands::Upgrade`): keep all pins, discard all, or discard the
pins of the named packages. -/
inductive Upgrade where
  | none
  | all
  | packages (names : List PackageName)
  deriving DecidableEq, Repr

/-- `Upgrade::is_all`. -/
def Upgrade.is_all : Upgrade → Bool
  | .all => true
  | _ => false

/-- Modelled from the spec: `uv_resolver::Preference` — a package name with
its pinned version, derived from one lock-output entry. -/
structure Preference where
  name : PackageName
  version : String
  deriving DecidableEq, Repr

/-- Modelled from the spec: `Preference::from_entry` — a lock entry that is
not a simple pinned `name==version` requirement is a hard conversion error. -/
def Preference.from_entry (entry : RequirementEntry) : Except Err Preference :=
  match entry.requirement with
  | .pep508 r =>
    match r.version_or_url with
    | some (.specifier [("==", v)]) => .ok { name := r.name, version := v }
    | _ => .error (.preferenceError entry.requirement)
  | .unnamed u => .error (.preferenceError (.unnamed u))

/-- `read_lockfile`: load the preferred pins from an existing lock output,
applying the upgrade strategy.  The lockfile read itself is the `readTxt`
oracle (forced offline in the source) and the existence probe is `existsFn`. -/
def read_lockfile (existsFn : String → Bool)
    (readTxt : String → Except Err RequirementsTxt)
    (output_file : Option String) (upgrade : Upgrade) :
    Except Err (List Preference) :=
  match output_file with
  | none => .ok []
  | some file =>
    if upgrade.is_all then .ok []
    else if !existsFn file then .ok []
    else
      match readTxt file with
      | .error e => .error e
      | .ok requirements_txt =>
        match (requirements_txt.requirements.filter
            (fun entry => !entry.editable)).mapM Preference.from_entry with
        | .error e => .error e
        | .ok preferences =>
          .ok (match upgrade with
            | .none => preferences
            | .all => []
            | .packages packages =>
              preferences.filter (fun preference =>
                !packages.contains preference.name))

/-- Read every source of a role list in order (the sequence of per-source
reads that the aggregation loops perform). -/
def readSources (w : World) (ex : ExtrasSpecification) :
    List RequirementsSource → Except Err (List RequirementsSpecification)
  | [] => .ok []
  | s :: rest =>
    match from_source w s ex with
    | .error e => .error e
    | .ok sp =>
      match readSources w ex rest with
      | .error e => .error e
      | .ok sps => .ok (sp :: sps)

/-- The first non-empty project name among per-source specifications, in
source order. -/
def firstProjectName (sps : List RequirementsSpecification) : Option PackageName :=
  sps.findSome? (fun sp => sp.project)

/-! ### Concrete instances

Worlds, filesystems and values used by the witnesses and counterexamples of
the verification below. -/

/-- A filesystem with no readable metadata anywhere. -/
def fs0 : FS :=
  { pathExists := fun _ => false, pkgInfo := fun _ => none,
    pyprojectName := fun _ => none, poetryName := fun _ => none,
    setupCfgName := fun _ => none, setupPyName := fun _ => none }

/-- A world in which every file read fails. -/
def w0 : World :=
  { reqTxt := fun p => .error (.ioError p),
    pyproject := fun p => .error (.ioError p) }

/-- A requirements file declaring only a primary index URL. -/
def dupIndexTxt : RequirementsTxt :=
  { requirements := [], constraints := [], editables := [],
    index_url := some "https://example.org/simple", extra_index_urls := [],
    noIndex := false, find_links := [] }

/-- A world in which every requirements file declares the same index URL. -/
def wDup : World :=
  { reqTxt := fun _ => .ok dupIndexTxt,
    pyproject := fun p => .error (.ioError p) }

/-- A world whose manifests have no `[project]` table at all. -/
def wNoProj : World :=
  { reqTxt := fun p => .error (.ioError p),
    pyproject := fun _ => .ok { project := none } }

/-- A world with two manifests declaring different project names. -/
def wTwoProj : World :=
  { reqTxt := fun p => .error (.ioError p),
    pyproject := fun p =>
      if p = "a.toml" then
        .ok { project := some { name := "alpha", dependencies := none,
                                optional_dependencies := none } }
      else
        .ok { project := some { name := "beta", dependencies := none,
                                optional_dependencies := none } } }

/-- The aggregate of reading `a.toml` then `b.toml` in `wTwoProj`. -/
def alphaSpec : RequirementsSpecification :=
  { emptySpec with project := some "alpha" }

/-- The requirement parsed from the literal `flask`. -/
def flaskReq : Requirement :=
  { name := "flask", extras := [], version_or_url := none, marker := none }

/-- The aggregate specification of the single literal `flask`. -/
def flaskSpec : RequirementsSpecification :=
  { emptySpec with requirements := [.pep508 flaskReq] }

/-- The named form of `flaskSpec`. -/
def flaskNamed : NamedRequirements :=
  { project := none, requirements := [flaskReq], constraints := [],
    overrides := [], editables := [], index_url := none,
    extra_index_urls := [], noIndex := false, find_links := [] }

/-- The requirement parsed from the literal `foo==1.0`. -/
def fooPinReq : Requirement :=
  { name := "foo", extras := [],
    version_or_url := some (.specifier [("==", "1.0")]), marker := none }

/-- The per-source specification of the literal `foo==1.0`. -/
def fooSourceSpec : RequirementsSpecification :=
  { emptySpec with requirements := [.pep508 fooPinReq] }

/-- The aggregate of `foo==1.0` used as the only constraints-role source. -/
def consAgg : RequirementsSpecification :=
  { emptySpec with constraints := [fooPinReq] }

/-- The wheel URL of the specification's `anyio` example. -/
def anyioUrl : Url :=
  { scheme := "https", path := "files/anyio-4.3.0-py3-none-any.whl" }

/-- The unnamed requirement carrying `anyioUrl`. -/
def anyioReq : UnnamedRequirement :=
  { url := anyioUrl, extras := [], marker := none }

/-- The named requirement the cascade infers for `anyioReq`. -/
def anyioNamed : Requirement :=
  { name := "anyio", extras := [], version_or_url := some (.url anyioUrl),
    marker := none }

/-- A non-editable lock entry pinning `foo==1.0`. -/
def fooEntry : RequirementEntry :=
  { requirement := .pep508 fooPinReq, editable := false }

/-- A non-editable lock entry pinning `bar==2.0`. -/
def barEntry : RequirementEntry :=
  { requirement := .pep508
      ({ name := "bar", extras := [],
         version_or_url := some (.specifier [("==", "2.0")]), marker := none }),
    editable := false }

/-- An editable lock entry pinning `baz==3.0`. -/
def bazEditableEntry : RequirementEntry :=
  { requirement := .pep508
      ({ name := "baz", extras := [],
         version_or_url := some (.specifier [("==", "3.0")]), marker := none }),
    editable := true }

/-- A lock output pinning `foo==1.0` and `bar==2.0` plus an editable entry. -/
def lockTxt : RequirementsTxt :=
  { requirements := [fooEntry, barEntry, bazEditableEntry], constraints := [],
    editables := [], index_url := none, extra_index_urls := [],
    noIndex := false, find_links := [] }

/-- The preference derived from `fooEntry`. -/
def fooPref : Preference := { name := "foo", version := "1.0" }

/-- The preference derived from `barEntry`. -/
def barPref : Preference := { name := "bar", version := "2.0" }

/-- `my-project[dev]`-style self reference: a requirement naming the owning
project and requesting the `dev` extra. -/
def selfRefReq : Requirement :=
  { name := "myproject", extras := ["dev"], version_or_url := none, marker := none }

/-- A plain third-party requirement inside `dev`. -/
def pepReq : Requirement :=
  { name := "pep517", extras := [], version_or_url := none, marker := none }

/-- An extras map whose `dev` group references itself. -/
def devMap : List (String × List Requirement) := [("dev", [selfRefReq, pepReq])]

/-- A self reference requesting extra `a`. -/
def refAReq : Requirement :=
  { name := "myproject", extras := ["a"], version_or_url := none, marker := none }

/-- A self reference requesting extra `b`. -/
def refBReq : Requirement :=
  { name := "myproject", extras := ["b"], version_or_url := none, marker := none }

/-- A plain third-party requirement inside `b`. -/
def tomliReq : Requirement :=
  { name := "tomli", extras := [], version_or_url := none, marker := none }

/-- An extras map with mutually referencing groups `a` and `b`. -/
def mutualMap : List (String × List Requirement) :=
  [("a", [refBReq]), ("b", [refAReq, tomliReq])]

/-! ### Helper lemmas about the index merge and the role folds -/

theorem mergeIndexes_err (a b : RequirementsSpecification) (e u : IndexUrl)
    (ha : a.index_url = some e) (hb : b.index_url = some u) :
    mergeIndexes a b = .error (.multipleIndexUrls e u) := by
  simp [mergeIndexes, ha, hb]

theorem mergeIndexes_src_none (a b : RequirementsSpecification)
    (hb : b.index_url = none) :
    mergeIndexes a b =
      .ok
        { a with
          noIndex := a.noIndex || b.noIndex,
          extra_index_urls := a.extra_index_urls ++ b.extra_index_urls,
          find_links := a.find_links ++ b.find_links } := by
  simp [mergeIndexes, hb]

theorem mergeIndexes_spec_none (a b : RequirementsSpecification) (u : IndexUrl)
    (ha : a.index_url = none) (hb : b.index_url = some u) :
    mergeIndexes a b =
      .ok
        { a with
          index_url := some u,
          noIndex := a.noIndex || b.noIndex,
          extra_index_urls := a.extra_index_urls ++ b.extra_index_urls,
          find_links := a.find_links ++ b.find_links } := by
  simp [mergeIndexes, ha, hb]

theorem mergeIndexes_frame {a b out : RequirementsSpecification}
    (h : mergeIndexes a b = .ok out) :
    out.project = a.project ∧ out.requirements = a.requirements ∧
    out.constraints = a.constraints ∧ out.overrides = a.overrides ∧
    out.editables = a.editables ∧ out.extras = a.extras ∧
    out.index_url = a.index_url.or b.index_url := by
  cases hb : b.index_url with
  | none =>
    rw [mergeIndexes_src_none a b hb, Except.ok.injEq] at h
    subst h
    simp
  | some u =>
    cases ha : a.index_url with
    | some e => rw [mergeIndexes_err a b e u ha hb] at h; simp at h
    | none =>
      rw [mergeIndexes_spec_none a b u ha hb, Except.ok.injEq] at h
      subst h
      simp [ha]

theorem addRequirementsRole_err (a b : RequirementsSpecification) (e u : IndexUrl)
    (ha : a.index_url = some e) (hb : b.index_url = some u) :
    addRequirementsRole a b = .error (.multipleIndexUrls e u) := by
  unfold addRequirementsRole
  exact mergeIndexes_err _ b e u ha hb

theorem addRequirementsRole_exists_ok (a b : RequirementsSpecification)
    (h : a.index_url = none ∨ b.index_url = none) :
    ∃ out, addRequirementsRole a b = .ok out := by
  unfold addRequirementsRole
  rcases h with ha | hb
  · cases hb2 : b.index_url with
    | none => exact ⟨_, mergeIndexes_src_none _ b hb2⟩
    | some u => exact ⟨_, mergeIndexes_spec_none _ b u ha hb2⟩
  · exact ⟨_, mergeIndexes_src_none _ b hb⟩

theorem addRequirementsRole_fields {a b out : RequirementsSpecification}
    (h : addRequirementsRole a b = .ok out) :
    out.project = a.project.or b.project ∧
    out.index_url = a.index_url.or b.index_url ∧
    out.requirements = a.requirements ++ b.requirements ∧
    out.constraints = a.constraints ++ b.constraints ∧
    out.overrides = a.overrides ++ b.overrides ∧
    out.editables = a.editables ++ b.editables ∧
    out.extras = setExtend a.extras b.extras := by
  unfold addRequirementsRole at h
  obtain ⟨hp, hr, hc, ho, he, hx, hi⟩ := mergeIndexes_frame h
  refine ⟨?_, hi, hr, hc, ho, he, hx⟩
  rw [hp]
  show (if a.project.isNone then b.project else a.project) = a.project.or b.project
  cases a.project <;> rfl

/-! ### C1: a second explicit primary index URL -/

/-- C1 (amended): during aggregation, the arrival of a second explicit
primary index URL is a hard error, with no comparison between the two URLs —
even the same URL repeated conflicts; when the later source declares no
primary URL, the first explicit primary URL is retained. -/
theorem second_index_url_always_errors :
    ∀ (w : World) (s₁ s₂ : RequirementsSource) (ex : ExtrasSpecification)
      (sp₁ sp₂ : RequirementsSpecification) (u₁ : IndexUrl),
      from_source w s₁ ex = .ok sp₁ →
      from_source w s₂ ex = .ok sp₂ →
      sp₁.index_url = some u₁ →
      (∀ u₂, sp₂.index_url = some u₂ →
        from_sources w [s₁, s₂] [] [] ex = .error (.multipleIndexUrls u₁ u₂)) ∧
      (sp₂.index_url = none →
        ∃ spec, from_sources w [s₁, s₂] [] [] ex = .ok spec ∧
          spec.index_url = some u₁) := by
  intro w s₁ s₂ ex sp₁ sp₂ u₁ h₁ h₂ hu₁
  obtain ⟨out₁, e₁⟩ := addRequirementsRole_exists_ok emptySpec sp₁ (Or.inl rfl)
  have hi₁ : out₁.index_url = some u₁ := by
    rw [(addRequirementsRole_fields e₁).2.1, hu₁]
    rfl
  constructor
  · intro u₂ hu₂
    have herr := addRequirementsRole_err out₁ sp₂ u₁ u₂ hi₁ hu₂
    simp [from_sources, foldRole, h₁, h₂, e₁, herr]
  · intro hn
    obtain ⟨out₂, e₂⟩ := addRequirementsRole_exists_ok out₁ sp₂ (Or.inr hn)
    have hi₂ : out₂.index_url = some u₁ := by
      rw [(addRequirementsRole_fields e₂).2.1, hi₁, hn]
      rfl
    exact ⟨out₂, by simp [from_sources, foldRole, h₁, h₂, e₁, e₂], hi₂⟩

/-- C1 counterexample to the claim as stated: merging two sources that
declare the *same* primary index URL does raise the error — the source never
compares the two URLs. -/
theorem same_index_url_conflicts :
    from_sources wDup [.requirementsTxt "a.txt", .requirementsTxt "b.txt"] [] [] .none
      = .error (.multipleIndexUrls "https://example.org/simple"
          "https://example.org/simple") := by
  rfl

/-- Witness for `second_index_url_always_errors` at a concrete input. -/
theorem second_index_url_always_errors_witness :
    from_sources wDup [.requirementsTxt "a.txt", .requirementsTxt "b.txt"] [] [] .none
      = .error (.multipleIndexUrls "https://example.org/simple"
          "https://example.org/simple") :=
  (second_index_url_always_errors wDup (.requirementsTxt "a.txt")
    (.requirementsTxt "b.txt") .none _ _ _ rfl rfl rfl).1 _ rfl

/-! ### C2: manifest without a declared project name -/

/-- C2 (amended): the external manifest parser makes the project name
mandatory only inside a present `[project]` table (its absence there is a
parse error, independent of the extras selector, modelled by the world
returning an error); a manifest with no `[project]` table at all reads
successfully into an empty specification — with no project name and no
requirements — even when extras beyond none are requested. -/
theorem manifest_project_table_behavior :
    ∀ (w : World) (path : String) (ex : ExtrasSpecification),
      (∀ pt, w.pyproject path = .ok pt → pt.project = none →
        from_source w (.pyprojectToml path) ex = .ok emptySpec) ∧
      (∀ e, w.pyproject path = .error e →
        from_source w (.pyprojectToml path) ex = .error e) := by
  intro w path ex
  constructor
  · intro pt hpt hnone
    simp [from_source, hpt, hnone, emptySpec]
  · intro e he
    simp [from_source, he]

/-- C2 counterexample to the claim as stated: a manifest that declares no
project name (no `[project]` table), read with all extras requested, returns
a specification rather than failing. -/
theorem manifest_without_project_reads_ok :
    from_source wNoProj (.pyprojectToml "pyproject.toml") .all = .ok emptySpec := by
  rfl

/-- Witness for `manifest_project_table_behavior` at concrete inputs. -/
theorem manifest_project_table_behavior_witness :
    from_source wNoProj (.pyprojectToml "pyproject.toml") .all = .ok emptySpec ∧
    from_source w0 (.pyprojectToml "pyproject.toml") .all
      = .error (.ioError "pyproject.toml") :=
  ⟨(manifest_project_table_behavior wNoProj "pyproject.toml" .all).1 _ rfl rfl,
   (manifest_project_table_behavior w0 "pyproject.toml" .all).2 _ rfl⟩

/-! ### C6: wheel URLs are named from the filename, without the filesystem -/

/-- C6: for every unnamed requirement whose URL path has a wheel-archive
suffix and whose filename parses under the wheel grammar, the name cascade
returns the wheel filename's name — for *every* filesystem, so no
filesystem access can influence the result, and no later strategy runs. -/
theorem wheel_url_names_without_fs :
    ∀ (fs : FS) (req : UnnamedRequirement) (ext f : String) (wf : WheelFilename),
      pathExtension req.url.path = some ext →
      eqIgnoreAsciiCase ext "whl" = true →
      req.url.filename = .ok f →
      WheelFilename.from_str f = .ok wf →
      name_requirement fs req =
        .ok ({ name := wf.name, extras := req.extras,
               version_or_url := some (.url req.url), marker := req.marker }) := by
  intro fs req ext f wf hext hcase hf hwf
  simp [name_requirement, hext, hcase, hf, hwf, Option.any]

/-- Witness for `wheel_url_names_without_fs`: the `anyio` wheel URL of the
specification resolves to name `anyio` on a filesystem with no files. -/
theorem wheel_url_names_without_fs_witness :
    name_requirement fs0 anyioReq = .ok anyioNamed :=
  wheel_url_names_without_fs fs0 anyioReq "whl" "anyio-4.3.0-py3-none-any.whl"
    ({ name := "anyio", version := "4.3.0" }) rfl rfl rfl rfl

/-! ### C7: lockfile loading short-circuits -/

/-- C7: the lockfile preference loader returns an empty list — for *every*
read oracle, hence without reading the lockfile — when no output path is
configured, when the path does not exist, or when the upgrade strategy
discards everything (even if the path exists). -/
theorem read_lockfile_short_circuits :
    ∀ (existsFn : String → Bool) (readTxt : String → Except Err RequirementsTxt)
      (output : Option String) (up : Upgrade),
      (output = none ∨ (∃ f, output = some f ∧ existsFn f = false) ∨ up = .all) →
      read_lockfile existsFn readTxt output up = .ok [] := by
  intro existsFn readTxt output up h
  rcases h with h | ⟨f, hf, hex⟩ | h
  · subst h; rfl
  · subst hf
    simp [read_lockfile, hex]
  · subst h
    cases output with
    | none => rfl
    | some f => simp [read_lockfile, Upgrade.is_all]

/-- Witness for `read_lockfile_short_circuits`: `DiscardAll` with an
existing output path and a readable lock output still yields the empty
list. -/
theorem read_lockfile_short_circuits_witness :
    read_lockfile (fun _ => true) (fun _ => .ok lockTxt)
      (some "requirements.lock") .all = .ok [] :=
  read_lockfile_short_circuits _ _ _ _ (Or.inr (Or.inr rfl))

/-! ### C8: editable exclusion and the DiscardPackages post-filter -/

/-- C8: when the loader does read the lock output, editable entries are
excluded unconditionally (only non-editable entries convert), and the
`DiscardPackages` post-filter removes exactly the preferences whose name is
in the given set. -/
theorem read_lockfile_filters :
    ∀ (existsFn : String → Bool) (readTxt : String → Except Err RequirementsTxt)
      (f : String) (rtxt : RequirementsTxt) (prefs : List Preference),
      existsFn f = true →
      readTxt f = .ok rtxt →
      (rtxt.requirements.filter (fun entry => !entry.editable)).mapM
          Preference.from_entry = .ok prefs →
      read_lockfile existsFn readTxt (some f) .none = .ok prefs ∧
      ∀ packages,
        read_lockfile existsFn readTxt (some f) (.packages packages) =
          .ok (prefs.filter (fun p => !packages.contains p.name)) ∧
        ∀ p ∈ prefs.filter (fun p => !packages.contains p.name),
          p.name ∉ packages := by
  intro existsFn readTxt f rtxt prefs hex hread hprefs
  constructor
  · simp only [read_lockfile, Upgrade.is_all, hex, hread]
    rw [hprefs]
    rfl
  · intro packages
    constructor
    · simp only [read_lockfile, Upgrade.is_all, hex, hread]
      rw [hprefs]
      rfl
    · intro p hp
      have hmem := List.mem_filter.mp hp
      simpa using hmem.2

/-- Witness for `read_lockfile_filters`: against a lock output pinning
`foo==1.0` and `bar==2.0` (plus an editable `baz` entry), discarding `foo`
returns only the `bar==2.0` preference. -/
theorem read_lockfile_filters_witness :
    read_lockfile (fun _ => true) (fun _ => .ok lockTxt)
      (some "requirements.lock") (.packages ["foo"]) = .ok [barPref] ∧
    barPref.name ∉ ["foo"] := by
  have h := read_lockfile_filters (fun _ => true) (fun _ => .ok lockTxt)
    "requirements.lock" lockTxt [fooPref, barPref] rfl rfl rfl
  exact ⟨(h.2 ["foo"]).1, (h.2 ["foo"]).2 barPref (by decide)⟩

/-! ### C9: round trip of the single literal `flask` -/

/-- C9: reading the single package literal `flask` as the only
requirements-role source, with no constraints-role or overrides-role
sources, and converting the aggregate to `NamedRequirements` yields exactly
one named requirement `flask` with no version constraint, and empty
constraints, overrides and editables — for every world and filesystem. -/
theorem round_trip_flask :
    ∀ (w : World) (fs : FS),
      from_sources w [.package "flask"] [] [] .none = .ok flaskSpec ∧
      NamedRequirements.from_spec fs flaskSpec = .ok flaskNamed ∧
      flaskNamed.requirements = [flaskReq] ∧ flaskReq.name = "flask" ∧
      flaskReq.version_or_url = none ∧ flaskNamed.constraints = [] ∧
      flaskNamed.overrides = [] ∧ flaskNamed.editables = [] :=
  fun _ _ => ⟨rfl, rfl, rfl, rfl, rfl, rfl, rfl, rfl⟩

/-! ### More helper lemmas about the role folds -/

theorem constraintsOfReqs_no_unnamed :
    ∀ (l : List RequirementsTxtRequirement) (named : List Requirement),
      constraintsOfReqs l = .ok named → ∀ r ∈ l, ∀ u, r ≠ .unnamed u := by
  intro l
  induction l with
  | nil => intro named _ r hr; simp at hr
  | cons x rest ih =>
    intro named h r hr
    cases x with
    | pep508 p =>
      simp only [constraintsOfReqs] at h
      cases hrest : constraintsOfReqs rest with
      | error e => rw [hrest] at h; exact absurd h (by simp)
      | ok nm =>
        rcases List.mem_cons.mp hr with h1 | h1
        · subst h1; intro u; simp
        · exact ih nm hrest r h1
    | unnamed u' => simp [constraintsOfReqs] at h

theorem overridesOfReqs_no_unnamed :
    ∀ (l : List RequirementsTxtRequirement) (named : List Requirement),
      overridesOfReqs l = .ok named → ∀ r ∈ l, ∀ u, r ≠ .unnamed u := by
  intro l
  induction l with
  | nil => intro named _ r hr; simp at hr
  | cons x rest ih =>
    intro named h r hr
    cases x with
    | pep508 p =>
      simp only [overridesOfReqs] at h
      cases hrest : overridesOfReqs rest with
      | error e => rw [hrest] at h; exact absurd h (by simp)
      | ok nm =>
        rcases List.mem_cons.mp hr with h1 | h1
        · subst h1; intro u; simp
        · exact ih nm hrest r h1
    | unnamed u' => simp [overridesOfReqs] at h

theorem addConstraintsRole_inv {a b out : RequirementsSpecification}
    (h : addConstraintsRole a b = .ok out) :
    ∃ named, constraintsOfReqs b.requirements = .ok named := by
  unfold addConstraintsRole at h
  cases hc : constraintsOfReqs b.requirements with
  | error e => simp only [hc] at h; exact Except.noConfusion h
  | ok named => exact ⟨named, rfl⟩

theorem addOverridesRole_inv {a b out : RequirementsSpecification}
    (h : addOverridesRole a b = .ok out) :
    ∃ named, overridesOfReqs b.requirements = .ok named := by
  unfold addOverridesRole at h
  cases hc : overridesOfReqs b.requirements with
  | error e => simp only [hc] at h; exact Except.noConfusion h
  | ok named => exact ⟨named, rfl⟩

theorem addConstraintsRole_frame {a b out : RequirementsSpecification}
    (h : addConstraintsRole a b = .ok out) :
    out.project = a.project ∧ out.editables = a.editables ∧ out.extras = a.extras := by
  unfold addConstraintsRole at h
  cases hc : constraintsOfReqs b.requirements with
  | error e => simp only [hc] at h; exact Except.noConfusion h
  | ok named =>
    simp only [hc] at h
    obtain ⟨hp, _, _, _, he, hx, _⟩ := mergeIndexes_frame h
    exact ⟨hp, he, hx⟩

theorem addOverridesRole_frame {a b out : RequirementsSpecification}
    (h : addOverridesRole a b = .ok out) :
    out.project = a.project ∧ out.editables = a.editables ∧ out.extras = a.extras := by
  unfold addOverridesRole at h
  cases hc : overridesOfReqs b.requirements with
  | error e => simp only [hc] at h; exact Except.noConfusion h
  | ok named =>
    simp only [hc] at h
    obtain ⟨hp, _, _, _, he, hx, _⟩ := mergeIndexes_frame h
    exact ⟨hp, he, hx⟩

theorem foldRole_cons_inv {w : World} {ex : ExtrasSpecification}
    {step : RequirementsSpecification → RequirementsSpecification →
      Except Err RequirementsSpecification}
    {acc out : RequirementsSpecification} {s : RequirementsSource}
    {rest : List RequirementsSource}
    (h : foldRole w ex step acc (s :: rest) = .ok out) :
    ∃ sp acc', from_source w s ex = .ok sp ∧ step acc sp = .ok acc' ∧
      foldRole w ex step acc' rest = .ok out := by
  simp only [foldRole] at h
  cases hs : from_source w s ex with
  | error e => simp only [hs] at h; exact Except.noConfusion h
  | ok sp =>
    simp only [hs] at h
    cases hstep : step acc sp with
    | error e => simp only [hstep] at h; exact Except.noConfusion h
    | ok acc' =>
      simp only [hstep] at h
      exact ⟨sp, acc', rfl, hstep, h⟩

theorem from_sources_inv {w : World}
    {reqs cons ovrs : List RequirementsSource} {ex : ExtrasSpecification}
    {spec : RequirementsSpecification}
    (h : from_sources w reqs cons ovrs ex = .ok spec) :
    ∃ s₁ s₂, foldRole w ex addRequirementsRole emptySpec reqs = .ok s₁ ∧
      foldRole w ex addConstraintsRole s₁ cons = .ok s₂ ∧
      foldRole w ex addOverridesRole s₂ ovrs = .ok spec := by
  unfold from_sources at h
  cases h₁ : foldRole w ex addRequirementsRole emptySpec reqs with
  | error e => simp only [h₁] at h; exact Except.noConfusion h
  | ok s₁ =>
    simp only [h₁] at h
    cases h₂ : foldRole w ex addConstraintsRole s₁ cons with
    | error e => simp only [h₂] at h; exact Except.noConfusion h
    | ok s₂ =>
      simp only [h₂] at h
      exact ⟨s₁, s₂, rfl, h₂, h⟩

theorem foldRole_cons_sources (w : World) (ex : ExtrasSpecification) :
    ∀ (l : List RequirementsSource) (acc out : RequirementsSpecification),
      foldRole w ex addConstraintsRole acc l = .ok out →
      ∀ s ∈ l, ∀ sp, from_source w s ex = .ok sp →
      ∀ r ∈ sp.requirements, ∀ u, r ≠ .unnamed u := by
  intro l
  induction l with
  | nil => intro acc out _ s hs; simp at hs
  | cons s₀ rest ih =>
    intro acc out h s hs sp hsp r hr
    obtain ⟨sp₀, acc', hsrc, hstep, hrest⟩ := foldRole_cons_inv h
    rcases List.mem_cons.mp hs with h1 | h1
    · subst h1
      rw [hsp] at hsrc
      injection hsrc with heq
      subst heq
      obtain ⟨named, hc⟩ := addConstraintsRole_inv hstep
      exact constraintsOfReqs_no_unnamed _ named hc r hr
    · exact ih acc' out hrest s h1 sp hsp r hr

theorem foldRole_ovrs_sources (w : World) (ex : ExtrasSpecification) :
    ∀ (l : List RequirementsSource) (acc out : RequirementsSpecification),
      foldRole w ex addOverridesRole acc l = .ok out →
      ∀ s ∈ l, ∀ sp, from_source w s ex = .ok sp →
      ∀ r ∈ sp.requirements, ∀ u, r ≠ .unnamed u := by
  intro l
  induction l with
  | nil => intro acc out _ s hs; simp at hs
  | cons s₀ rest ih =>
    intro acc out h s hs sp hsp r hr
    obtain ⟨sp₀, acc', hsrc, hstep, hrest⟩ := foldRole_cons_inv h
    rcases List.mem_cons.mp hs with h1 | h1
    · subst h1
      rw [hsp] at hsrc
      injection hsrc with heq
      subst heq
      obtain ⟨named, hc⟩ := addOverridesRole_inv hstep
      exact overridesOfReqs_no_unnamed _ named hc r hr
    · exact ih acc' out hrest s h1 sp hsp r hr

/-! ### C3: constraints-role and overrides-role sources reject unnamed
requirements -/

/-- C3: whenever aggregation succeeds, no constraints-role or overrides-role
source contributed an unnamed (URL-only) requirement — an unnamed requirement
in such a source is a hard error that aborts the whole merge.  (In the
embedding the aggregate's `constraints` and `overrides` fields hold values of
the named `Requirement` type, so they can only contain named requirements.) -/
theorem constraints_overrides_reject_unnamed :
    ∀ (w : World) (reqsS consS ovrsS : List RequirementsSource)
      (ex : ExtrasSpecification) (spec : RequirementsSpecification),
      from_sources w reqsS consS ovrsS ex = .ok spec →
      ∀ s, s ∈ consS ∨ s ∈ ovrsS →
      ∀ sp, from_source w s ex = .ok sp →
      ∀ r ∈ sp.requirements, ∀ u, r ≠ .unnamed u := by
  intro w reqsS consS ovrsS ex spec h s hs sp hsp r hr u
  obtain ⟨s₁, s₂, h₁, h₂, h₃⟩ := from_sources_inv h
  rcases hs with hs | hs
  · exact foldRole_cons_sources w ex consS s₁ s₂ h₂ s hs sp hsp r hr u
  · exact foldRole_ovrs_sources w ex ovrsS s₂ spec h₃ s hs sp hsp r hr u

/-- Witness for `constraints_overrides_reject_unnamed` at a concrete merge
whose only constraints-role source is the named literal `foo==1.0`. -/
theorem constraints_overrides_reject_unnamed_witness :
    RequirementsTxtRequirement.pep508 fooPinReq ≠ .unnamed anyioReq :=
  constraints_overrides_reject_unnamed w0 [] [.package "foo==1.0"] [] .none
    consAgg rfl (.package "foo==1.0") (Or.inl (by simp)) fooSourceSpec rfl
    (.pep508 fooPinReq) (by simp [fooSourceSpec, emptySpec]) anyioReq

/-! ### C5: the first non-empty project name wins -/

theorem foldRole_req_project (w : World) (ex : ExtrasSpecification) :
    ∀ (l : List RequirementsSource) (acc out : RequirementsSpecification),
      foldRole w ex addRequirementsRole acc l = .ok out →
      ∃ sps, readSources w ex l = .ok sps ∧
        out.project = acc.project.or (firstProjectName sps) := by
  intro l
  induction l with
  | nil =>
    intro acc out h
    simp only [foldRole, Except.ok.injEq] at h
    subst h
    exact ⟨[], rfl, by simp [firstProjectName]⟩
  | cons s rest ih =>
    intro acc out h
    obtain ⟨sp, acc', hsrc, hstep, hrest⟩ := foldRole_cons_inv h
    obtain ⟨sps, hmap, hproj⟩ := ih acc' out hrest
    refine ⟨sp :: sps, ?_, ?_⟩
    · simp only [readSources, hsrc, hmap]
    · rw [hproj, (addRequirementsRole_fields hstep).1, Option.or_assoc]
      have : sp.project.or (firstProjectName sps)
          = firstProjectName (sp :: sps) := by
        cases hq : sp.project <;>
          simp [firstProjectName, List.findSome?_cons, hq, Option.or]
      rw [this]

/-- C5: for any ordered list of requirements-role sources (and no
constraints-role or overrides-role sources), a successful aggregate's project
name is the first non-empty project name among the per-source specifications,
in source order — `none` when no source has one; later non-empty names are
ignored without error. -/
theorem project_name_first_nonempty :
    ∀ (w : World) (srcs : List RequirementsSource) (ex : ExtrasSpecification)
      (spec : RequirementsSpecification),
      from_sources w srcs [] [] ex = .ok spec →
      ∃ sps, readSources w ex srcs = .ok sps ∧
        spec.project = firstProjectName sps := by
  intro w srcs ex spec h
  obtain ⟨s₁, s₂, h₁, h₂, h₃⟩ := from_sources_inv h
  simp only [foldRole, Except.ok.injEq] at h₂ h₃
  obtain ⟨sps, hm, hp⟩ := foldRole_req_project w ex srcs emptySpec s₁ h₁
  refine ⟨sps, hm, ?_⟩
  rw [← h₃, ← h₂, hp]
  rfl

/-- Witness for `project_name_first_nonempty`: two manifests declaring
`alpha` then `beta`; the aggregate keeps `alpha`. -/
theorem project_name_first_nonempty_witness :
    ∃ sps, readSources wTwoProj .none
        [.pyprojectToml "a.toml", .pyprojectToml "b.toml"] = .ok sps ∧
      alphaSpec.project = firstProjectName sps :=
  project_name_first_nonempty wTwoProj
    [.pyprojectToml "a.toml", .pyprojectToml "b.toml"] .none alphaSpec rfl

/-! ### C10: constraints-role and overrides-role sources touch neither
project name, editables nor extras -/

theorem foldRole_frame (w : World) (ex : ExtrasSpecification)
    (step : RequirementsSpecification → RequirementsSpecification →
      Except Err RequirementsSpecification)
    (hstep : ∀ a b o, step a b = .ok o →
      o.project = a.project ∧ o.editables = a.editables ∧ o.extras = a.extras) :
    ∀ (l : List RequirementsSource) (acc out : RequirementsSpecification),
      foldRole w ex step acc l = .ok out →
      out.project = acc.project ∧ out.editables = acc.editables ∧
        out.extras = acc.extras := by
  intro l
  induction l with
  | nil =>
    intro acc out h
    simp only [foldRole, Except.ok.injEq] at h
    subst h
    exact ⟨rfl, rfl, rfl⟩
  | cons s rest ih =>
    intro acc out h
    obtain ⟨sp, acc', hsrc, hst, hrest⟩ := foldRole_cons_inv h
    obtain ⟨p1, e1, x1⟩ := hstep acc sp acc' hst
    obtain ⟨p2, e2, x2⟩ := ih acc' out hrest
    exact ⟨p2.trans p1, e2.trans e1, x2.trans x1⟩

/-- C10: constraints-role and overrides-role sources contribute nothing to
the aggregate's project name, editables or extras: a successful merge has
the same project, editables and extras as the merge of the requirements-role
sources alone — whatever editables, extras or project names the
constraints/overrides sources carried are silently discarded. -/
theorem roles_frame_project_editables_extras :
    ∀ (w : World) (reqsS consS ovrsS : List RequirementsSource)
      (ex : ExtrasSpecification) (spec spec₀ : RequirementsSpecification),
      from_sources w reqsS consS ovrsS ex = .ok spec →
      from_sources w reqsS [] [] ex = .ok spec₀ →
      spec.project = spec₀.project ∧ spec.editables = spec₀.editables ∧
        spec.extras = spec₀.extras := by
  intro w reqsS consS ovrsS ex spec spec₀ h h₀
  obtain ⟨s₁, s₂, h₁, h₂, h₃⟩ := from_sources_inv h
  obtain ⟨t₁, t₂, g₁, g₂, g₃⟩ := from_sources_inv h₀
  simp only [foldRole, Except.ok.injEq] at g₂ g₃
  subst g₂
  subst g₃
  rw [h₁, Except.ok.injEq] at g₁
  subst g₁
  obtain ⟨p2, e2, x2⟩ := foldRole_frame w ex addConstraintsRole
    (fun _ _ _ hh => addConstraintsRole_frame hh) consS s₁ s₂ h₂
  obtain ⟨p3, e3, x3⟩ := foldRole_frame w ex addOverridesRole
    (fun _ _ _ hh => addOverridesRole_frame hh) ovrsS s₂ spec h₃
  exact ⟨p3.trans p2, e3.trans e2, x3.trans x2⟩

/-- Witness for `roles_frame_project_editables_extras`: an editable
constraints-role source leaves project, editables and extras exactly as the
requirements-role-only merge produced them. -/
theorem roles_frame_project_editables_extras_witness :
    alphaSpec.project = alphaSpec.project ∧
    alphaSpec.editables = alphaSpec.editables ∧
    alphaSpec.extras = alphaSpec.extras :=
  roles_frame_project_editables_extras wTwoProj [.pyprojectToml "a.toml"]
    [.editable "../pkg"] [] .none alphaSpec alphaSpec rfl rfl

/-! ### Helper lemmas for the extras flattener

The flattener's loops only ever append fresh extras to the visited set, so
the set grows monotonically and stays duplicate-free; and every fresh
expansion strictly shrinks the number of mentioned-but-unvisited extras, so
the fuel budget `flattenFuel` is never exhausted. -/

theorem newExtras_mono (U : List ExtraName) {s t : List ExtraName}
    (h : ∀ x ∈ s, x ∈ t) : newExtras U t ≤ newExtras U s := by
  apply Finset.card_le_card
  apply Finset.sdiff_subset_sdiff (Finset.Subset.refl _)
  intro x hx
  rw [List.mem_toFinset] at hx ⊢
  exact h x hx

theorem newExtras_insert_lt (U : List ExtraName) {seen : List ExtraName}
    {e : ExtraName} (hU : e ∈ U) (he : e ∉ seen) :
    newExtras U (seen ++ [e]) < newExtras U seen := by
  have hsub : U.toFinset \ (seen ++ [e]).toFinset ⊆ U.toFinset \ seen.toFinset := by
    apply Finset.sdiff_subset_sdiff (Finset.Subset.refl _)
    intro x hx
    rw [List.mem_toFinset] at hx ⊢
    exact List.mem_append_left _ hx
  have hmem : e ∈ U.toFinset \ seen.toFinset :=
    Finset.mem_sdiff.mpr ⟨List.mem_toFinset.mpr hU,
      fun hc => he (List.mem_toFinset.mp hc)⟩
  refine Finset.card_lt_card ((Finset.ssubset_iff_of_subset hsub).mpr
    ⟨e, hmem, ?_⟩)
  simp [List.toFinset_append]

theorem fromStr_error {s : String} {err : Err}
    (h : ExtraName.fromStr s = .error err) : err = .invalidName s := by
  unfold ExtraName.fromStr at h
  by_cases hv : validName s
  · rw [if_pos hv] at h
    exact Except.noConfusion h
  · rw [if_neg hv] at h
    injection h with h
    exact h.symm

theorem flattenExtrasOfZero_inv :
    ∀ (exList seen : List ExtraName) (l : List Requirement) (s' : List ExtraName),
      flattenExtrasOfZero exList seen = .ok (l, s') →
      (∀ x ∈ seen, x ∈ s') ∧ (seen.Nodup → s'.Nodup) := by
  intro exList
  induction exList with
  | nil =>
    intro seen l s' h
    simp only [flattenExtrasOfZero, Except.ok.injEq, Prod.mk.injEq] at h
    obtain ⟨-, h2⟩ := h
    subst h2
    exact ⟨fun x hx => hx, id⟩
  | cons e more ih =>
    intro seen l s' h
    simp only [flattenExtrasOfZero] at h
    by_cases he : e ∈ seen
    · rw [if_pos he] at h
      exact ih seen l s' h
    · rw [if_neg he] at h
      exact Except.noConfusion h

theorem mkReqs_inv (pn : PackageName)
    (exf : List ExtraName → List ExtraName → FlatRes)
    (hexf : ∀ exList seen l s', exf exList seen = .ok (l, s') →
      (∀ x ∈ seen, x ∈ s') ∧ (seen.Nodup → s'.Nodup)) :
    ∀ (reqs : List Requirement) (seen : List ExtraName) (l : List Requirement)
      (s' : List ExtraName),
      mkReqs pn exf reqs seen = .ok (l, s') →
      (∀ x ∈ seen, x ∈ s') ∧ (seen.Nodup → s'.Nodup) := by
  intro reqs
  induction reqs with
  | nil =>
    intro seen l s' h
    simp only [mkReqs, Except.ok.injEq, Prod.mk.injEq] at h
    obtain ⟨-, h2⟩ := h
    subst h2
    exact ⟨fun x hx => hx, id⟩
  | cons r rest ih =>
    intro seen l s' h
    simp only [mkReqs] at h
    by_cases hname : r.name = pn
    · rw [if_pos hname] at h
      cases hex : exf r.extras seen with
      | error err => simp only [hex] at h; exact Except.noConfusion h
      | ok p =>
        obtain ⟨flat₁, seen₁⟩ := p
        simp only [hex] at h
        cases hrest : mkReqs pn exf rest seen₁ with
        | error err => simp only [hrest] at h; exact Except.noConfusion h
        | ok q =>
          obtain ⟨flat₂, seen₂⟩ := q
          simp only [hrest, Except.ok.injEq, Prod.mk.injEq] at h
          obtain ⟨-, h2⟩ := h
          subst h2
          obtain ⟨m1, n1⟩ := hexf r.extras seen flat₁ seen₁ hex
          obtain ⟨m2, n2⟩ := ih seen₁ flat₂ seen₂ hrest
          exact ⟨fun x hx => m2 x (m1 x hx), fun hnd => n2 (n1 hnd)⟩
    · rw [if_neg hname] at h
      cases hrest : mkReqs pn exf rest seen with
      | error err => simp only [hrest] at h; exact Except.noConfusion h
      | ok q =>
        obtain ⟨flat, seen₁⟩ := q
        simp only [hrest, Except.ok.injEq, Prod.mk.injEq] at h
        obtain ⟨-, h2⟩ := h
        subst h2
        exact ih seen flat seen₁ hrest

theorem mkEntries_inv (pn : PackageName)
    (reqf : List Requirement → List ExtraName → FlatRes)
    (hreqf : ∀ reqs seen l s', reqf reqs seen = .ok (l, s') →
      (∀ x ∈ seen, x ∈ s') ∧ (seen.Nodup → s'.Nodup)) :
    ∀ (entries : List (String × List Requirement)) (e : ExtraName)
      (seen : List ExtraName) (l : List Requirement) (s' : List ExtraName),
      mkEntries pn reqf entries e seen = .ok (l, s') →
      (∀ x ∈ seen, x ∈ s') ∧ (seen.Nodup → s'.Nodup) := by
  intro entries
  induction entries with
  | nil =>
    intro e seen l s' h
    simp only [mkEntries, Except.ok.injEq, Prod.mk.injEq] at h
    obtain ⟨-, h2⟩ := h
    subst h2
    exact ⟨fun x hx => hx, id⟩
  | cons p rest ih =>
    obtain ⟨entryName, ereqs⟩ := p
    intro e seen l s' h
    simp only [mkEntries] at h
    cases hns : ExtraName.fromStr entryName with
    | error err => simp only [hns] at h; exact Except.noConfusion h
    | ok normalized =>
      simp only [hns] at h
      by_cases heq : normalized = e
      · rw [if_pos heq] at h
        cases hreq : reqf ereqs seen with
        | error err => simp only [hreq] at h; exact Except.noConfusion h
        | ok q =>
          obtain ⟨flat₁, seen₁⟩ := q
          simp only [hreq] at h
          cases hrest : mkEntries pn reqf rest e seen₁ with
          | error err => simp only [hrest] at h; exact Except.noConfusion h
          | ok q2 =>
            obtain ⟨flat₂, seen₂⟩ := q2
            simp only [hrest, Except.ok.injEq, Prod.mk.injEq] at h
            obtain ⟨-, h2⟩ := h
            subst h2
            obtain ⟨m1, n1⟩ := hreqf ereqs seen flat₁ seen₁ hreq
            obtain ⟨m2, n2⟩ := ih e seen₁ flat₂ seen₂ hrest
            exact ⟨fun x hx => m2 x (m1 x hx), fun hnd => n2 (n1 hnd)⟩
      · rw [if_neg heq] at h
        exact ih e seen l s' h

theorem mkExtrasOf_inv (extrasMap : List (String × List Requirement))
    (ent : List (String × List Requirement) → ExtraName → List ExtraName → FlatRes)
    (hent : ∀ entries e seen l s', ent entries e seen = .ok (l, s') →
      (∀ x ∈ seen, x ∈ s') ∧ (seen.Nodup → s'.Nodup)) :
    ∀ (exList seen : List ExtraName) (l : List Requirement) (s' : List ExtraName),
      mkExtrasOf extrasMap ent exList seen = .ok (l, s') →
      (∀ x ∈ seen, x ∈ s') ∧ (seen.Nodup → s'.Nodup) := by
  intro exList
  induction exList with
  | nil =>
    intro seen l s' h
    simp only [mkExtrasOf, Except.ok.injEq, Prod.mk.injEq] at h
    obtain ⟨-, h2⟩ := h
    subst h2
    exact ⟨fun x hx => hx, id⟩
  | cons e more ih =>
    intro seen l s' h
    simp only [mkExtrasOf] at h
    by_cases he : e ∈ seen
    · rw [if_pos he] at h
      exact ih seen l s' h
    · rw [if_neg he] at h
      cases hent2 : ent extrasMap e (seen ++ [e]) with
      | error err => simp only [hent2] at h; exact Except.noConfusion h
      | ok q =>
        obtain ⟨flat₁, seen₁⟩ := q
        simp only [hent2] at h
        cases hrest : mkExtrasOf extrasMap ent more seen₁ with
        | error err => simp only [hrest] at h; exact Except.noConfusion h
        | ok q2 =>
          obtain ⟨flat₂, seen₂⟩ := q2
          simp only [hrest, Except.ok.injEq, Prod.mk.injEq] at h
          obtain ⟨-, h2⟩ := h
          subst h2
          obtain ⟨m1, n1⟩ := hent extrasMap e (seen ++ [e]) flat₁ seen₁ hent2
          obtain ⟨m2, n2⟩ := ih seen₁ flat₂ seen₂ hrest
          refine ⟨fun x hx => m2 x (m1 x (List.mem_append_left _ hx)),
            fun hnd => n2 (n1 ?_)⟩
          simp [List.nodup_append, hnd, he]

theorem flattenExtrasOf_inv (pn : PackageName)
    (extrasMap : List (String × List Requirement)) :
    ∀ (fuel : Nat) (exList seen : List ExtraName) (l : List Requirement)
      (s' : List ExtraName),
      flattenExtrasOf pn extrasMap fuel exList seen = .ok (l, s') →
      (∀ x ∈ seen, x ∈ s') ∧ (seen.Nodup → s'.Nodup) := by
  intro fuel
  induction fuel with
  | zero => exact flattenExtrasOfZero_inv
  | succ fuel ih =>
    exact mkExtrasOf_inv extrasMap _ (mkEntries_inv pn _ (mkReqs_inv pn _ ih))

theorem flattenReqs_inv (pn : PackageName)
    (extrasMap : List (String × List Requirement)) (fuel : Nat) :
    ∀ (reqs : List Requirement) (seen : List ExtraName) (l : List Requirement)
      (s' : List ExtraName),
      flattenReqs pn extrasMap fuel reqs seen = .ok (l, s') →
      (∀ x ∈ seen, x ∈ s') ∧ (seen.Nodup → s'.Nodup) :=
  mkReqs_inv pn _ (flattenExtrasOf_inv pn extrasMap fuel)

theorem flattenEntries_inv (pn : PackageName)
    (extrasMap : List (String × List Requirement)) (fuel : Nat) :
    ∀ (entries : List (String × List Requirement)) (e : ExtraName)
      (seen : List ExtraName) (l : List Requirement) (s' : List ExtraName),
      flattenEntries pn extrasMap fuel entries e seen = .ok (l, s') →
      (∀ x ∈ seen, x ∈ s') ∧ (seen.Nodup → s'.Nodup) :=
  mkEntries_inv pn _ (flattenReqs_inv pn extrasMap fuel)

theorem mkReqs_fuel (pn : PackageName)
    (exf : List ExtraName → List ExtraName → FlatRes) (U : List ExtraName)
    (K : Nat)
    (hexf : ∀ exList seen, (∀ e ∈ exList, e ∈ U) → newExtras U seen < K →
      exf exList seen ≠ .error .outOfFuel)
    (hexfInv : ∀ exList seen l s', exf exList seen = .ok (l, s') →
      (∀ x ∈ seen, x ∈ s') ∧ (seen.Nodup → s'.Nodup)) :
    ∀ (reqs : List Requirement) (seen : List ExtraName),
      (∀ r ∈ reqs, ∀ e ∈ r.extras, e ∈ U) → newExtras U seen < K →
      mkReqs pn exf reqs seen ≠ .error .outOfFuel := by
  intro reqs
  induction reqs with
  | nil =>
    intro seen _ _ habs
    simp only [mkReqs] at habs
    exact Except.noConfusion habs
  | cons r rest ih =>
    intro seen hb hk habs
    simp only [mkReqs] at habs
    by_cases hname : r.name = pn
    · rw [if_pos hname] at habs
      cases hex : exf r.extras seen with
      | error err =>
        simp only [hex] at habs
        injection habs with h
        subst h
        exact hexf r.extras seen
          (fun e he => hb r (List.mem_cons_self r rest) e he) hk hex
      | ok p =>
        obtain ⟨flat₁, seen₁⟩ := p
        simp only [hex] at habs
        cases hrest : mkReqs pn exf rest seen₁ with
        | error err =>
          simp only [hrest] at habs
          injection habs with h
          subst h
          have hmono := (hexfInv r.extras seen flat₁ seen₁ hex).1
          have hle := newExtras_mono U hmono
          exact ih seen₁
            (fun r' hr' e he => hb r' (List.mem_cons_of_mem r hr') e he)
            (by omega) hrest
        | ok q =>
          obtain ⟨f2, s2⟩ := q
          simp only [hrest] at habs
          exact Except.noConfusion habs
    · rw [if_neg hname] at habs
      cases hrest : mkReqs pn exf rest seen with
      | error err =>
        simp only [hrest] at habs
        injection habs with h
        subst h
        exact ih seen
          (fun r' hr' e he => hb r' (List.mem_cons_of_mem r hr') e he) hk hrest
      | ok q =>
        obtain ⟨f2, s2⟩ := q
        simp only [hrest] at habs
        exact Except.noConfusion habs

theorem mkEntries_fuel (pn : PackageName)
    (reqf : List Requirement → List ExtraName → FlatRes) (U : List ExtraName)
    (K : Nat)
    (hreqf : ∀ reqs seen, (∀ r ∈ reqs, ∀ e ∈ r.extras, e ∈ U) →
      newExtras U seen < K → reqf reqs seen ≠ .error .outOfFuel)
    (hreqfInv : ∀ reqs seen l s', reqf reqs seen = .ok (l, s') →
      (∀ x ∈ seen, x ∈ s') ∧ (seen.Nodup → s'.Nodup)) :
    ∀ (entries : List (String × List Requirement)) (e : ExtraName)
      (seen : List ExtraName),
      (∀ p ∈ entries, ∀ r ∈ p.2, ∀ e' ∈ r.extras, e' ∈ U) →
      newExtras U seen < K →
      mkEntries pn reqf entries e seen ≠ .error .outOfFuel := by
  intro entries
  induction entries with
  | nil =>
    intro e seen _ _ habs
    simp only [mkEntries] at habs
    exact Except.noConfusion habs
  | cons p rest ih =>
    obtain ⟨entryName, ereqs⟩ := p
    intro e seen hb hk habs
    simp only [mkEntries] at habs
    cases hns : ExtraName.fromStr entryName with
    | error err =>
      simp only [hns] at habs
      injection habs with h
      subst h
      exact Err.noConfusion (fromStr_error hns)
    | ok normalized =>
      simp only [hns] at habs
      by_cases heq : normalized = e
      · rw [if_pos heq] at habs
        cases hreq : reqf ereqs seen with
        | error err =>
          simp only [hreq] at habs
          injection habs with h
          subst h
          exact hreqf ereqs seen
            (fun r hr e' he' =>
              hb (entryName, ereqs) (List.mem_cons_self _ rest) r hr e' he')
            hk hreq
        | ok q =>
          obtain ⟨flat₁, seen₁⟩ := q
          simp only [hreq] at habs
          cases hrest : mkEntries pn reqf rest e seen₁ with
          | error err =>
            simp only [hrest] at habs
            injection habs with h
            subst h
            have hmono := (hreqfInv ereqs seen flat₁ seen₁ hreq).1
            have hle := newExtras_mono U hmono
            exact ih e seen₁
              (fun p' hp' => hb p' (List.mem_cons_of_mem _ hp'))
              (by omega) hrest
          | ok q2 =>
            obtain ⟨f2, s2⟩ := q2
            simp only [hrest] at habs
            exact Except.noConfusion habs
      · rw [if_neg heq] at habs
        exact ih e seen (fun p' hp' => hb p' (List.mem_cons_of_mem _ hp'))
          hk habs

theorem mkExtrasOf_fuel (extrasMap : List (String × List Requirement))
    (ent : List (String × List Requirement) → ExtraName → List ExtraName → FlatRes)
    (U : List ExtraName) (K : Nat)
    (hent : ∀ entries e seen,
      (∀ p ∈ entries, ∀ r ∈ p.2, ∀ e' ∈ r.extras, e' ∈ U) →
      newExtras U seen < K → ent entries e seen ≠ .error .outOfFuel)
    (hentInv : ∀ entries e seen l s', ent entries e seen = .ok (l, s') →
      (∀ x ∈ seen, x ∈ s') ∧ (seen.Nodup → s'.Nodup))
    (hmb : ∀ p ∈ extrasMap, ∀ r ∈ p.2, ∀ e ∈ r.extras, e ∈ U) :
    ∀ (exList seen : List ExtraName), (∀ e ∈ exList, e ∈ U) →
      newExtras U seen < K + 1 →
      mkExtrasOf extrasMap ent exList seen ≠ .error .outOfFuel := by
  intro exList
  induction exList with
  | nil =>
    intro seen _ _ habs
    simp only [mkExtrasOf] at habs
    exact Except.noConfusion habs
  | cons e more ih =>
    intro seen hb hk habs
    simp only [mkExtrasOf] at habs
    by_cases he : e ∈ seen
    · rw [if_pos he] at habs
      exact ih seen (fun e' he' => hb e' (List.mem_cons_of_mem e he')) hk habs
    · rw [if_neg he] at habs
      have heU : e ∈ U := hb e (List.mem_cons_self e more)
      have hlt := newExtras_insert_lt U heU he
      cases hent2 : ent extrasMap e (seen ++ [e]) with
      | error err =>
        simp only [hent2] at habs
        injection habs with h
        subst h
        exact hent extrasMap e (seen ++ [e]) hmb (by omega) hent2
      | ok q =>
        obtain ⟨flat₁, seen₁⟩ := q
        simp only [hent2] at habs
        cases hrest : mkExtrasOf extrasMap ent more seen₁ with
        | error err =>
          simp only [hrest] at habs
          injection habs with h
          subst h
          have hmono := (hentInv extrasMap e (seen ++ [e]) flat₁ seen₁ hent2).1
          have hle := newExtras_mono U hmono
          exact ih seen₁ (fun e' he' => hb e' (List.mem_cons_of_mem e he'))
            (by omega) hrest
        | ok q2 =>
          obtain ⟨f2, s2⟩ := q2
          simp only [hrest] at habs
          exact Except.noConfusion habs

theorem flattenExtrasOf_fuel (pn : PackageName)
    (extrasMap : List (String × List Requirement)) (U : List ExtraName)
    (hmb : ∀ p ∈ extrasMap, ∀ r ∈ p.2, ∀ e ∈ r.extras, e ∈ U) :
    ∀ (fuel : Nat) (exList seen : List ExtraName), (∀ e ∈ exList, e ∈ U) →
      newExtras U seen < fuel →
      flattenExtrasOf pn extrasMap fuel exList seen ≠ .error .outOfFuel := by
  intro fuel
  induction fuel with
  | zero => intro exList seen _ hk; exact absurd hk (by omega)
  | succ fuel ih =>
    intro exList seen hb hk
    exact mkExtrasOf_fuel extrasMap _ U fuel
      (mkEntries_fuel pn _ U fuel
        (mkReqs_fuel pn _ U fuel ih (flattenExtrasOf_inv pn extrasMap fuel))
        (flattenReqs_inv pn extrasMap fuel))
      (flattenEntries_inv pn extrasMap fuel) hmb exList seen hb hk

/-! ### C4: extra flattening terminates with no duplicate expansion -/

/-- C4: for every extras reference graph — including direct self-reference
and mutual reference — the flattener terminates with a result (its fuel
budget is never exhausted); within one top-level flatten the visited set
never records the same extra twice, so each extra name is expanded at most
once; and an already-visited extra is skipped silently — the loop simply
moves on, with no error. -/
theorem flatten_extra_terminates_nodup :
    ∀ (pn : PackageName) (requirements : List Requirement)
      (extras : List (String × List Requirement)),
      flatten_extra pn requirements extras ≠ .error .outOfFuel ∧
      (∀ l s', flattenReqs pn extras (flattenFuel requirements extras)
          requirements [] = .ok (l, s') → s'.Nodup) ∧
      (∀ (fuel : Nat) (e : ExtraName) (rest seen : List ExtraName), e ∈ seen →
        flattenExtrasOf pn extras fuel (e :: rest) seen =
          flattenExtrasOf pn extras fuel rest seen) := by
  intro pn requirements extras
  refine ⟨?_, ?_, ?_⟩
  · intro habs
    unfold flatten_extra at habs
    cases hr : flattenReqs pn extras (flattenFuel requirements extras)
        requirements [] with
    | error err =>
      simp only [hr] at habs
      injection habs with h
      subst h
      have hU : ∀ p ∈ extras, ∀ r ∈ p.2, ∀ e ∈ r.extras,
          e ∈ mentionedExtras requirements extras := by
        intro p hp r hrq e he
        refine List.mem_flatten.mpr ⟨r.extras, List.mem_map.mpr ⟨r, ?_, rfl⟩, he⟩
        refine List.mem_append.mpr (Or.inr ?_)
        exact List.mem_flatten.mpr ⟨p.2, List.mem_map.mpr ⟨p, hp, rfl⟩, hrq⟩
      have hreqsB : ∀ r ∈ requirements, ∀ e ∈ r.extras,
          e ∈ mentionedExtras requirements extras := by
        intro r hrq e he
        refine List.mem_flatten.mpr ⟨r.extras, List.mem_map.mpr ⟨r, ?_, rfl⟩, he⟩
        exact List.mem_append.mpr (Or.inl hrq)
      have hk : newExtras (mentionedExtras requirements extras) [] <
          flattenFuel requirements extras := by
        unfold newExtras flattenFuel
        have h1 := List.toFinset_card_le (mentionedExtras requirements extras)
        simp only [List.toFinset_nil, Finset.sdiff_empty]
        omega
      exact mkReqs_fuel pn _ (mentionedExtras requirements extras)
        (flattenFuel requirements extras)
        (flattenExtrasOf_fuel pn extras _ hU (flattenFuel requirements extras))
        (flattenExtrasOf_inv pn extras (flattenFuel requirements extras))
        requirements [] hreqsB hk hr
    | ok p =>
      obtain ⟨l, s⟩ := p
      simp only [hr] at habs
      exact Except.noConfusion habs
  · intro l s' h
    exact (flattenReqs_inv pn extras (flattenFuel requirements extras)
      requirements [] l s' h).2 List.nodup_nil
  · intro fuel e rest seen he
    cases fuel with
    | zero => simp [flattenExtrasOf, flattenExtrasOfZero, he]
    | succ f => simp [flattenExtrasOf, mkExtrasOf, he]

/-- Witness for `flatten_extra_terminates_nodup`: a `dev → dev` direct
self-reference and an `a ↔ b` mutual reference both flatten without
exhausting the budget, with duplicate-free visited sets, and an
already-visited extra is skipped. -/
theorem flatten_extra_terminates_nodup_witness :
    flatten_extra "myproject" [selfRefReq] devMap ≠ .error .outOfFuel ∧
    List.Nodup ["dev"] ∧ List.Nodup ["a", "b"] ∧
    flattenExtrasOf "myproject" devMap 5 ["dev"] ["dev"] =
      flattenExtrasOf "myproject" devMap 5 [] ["dev"] :=
  ⟨(flatten_extra_terminates_nodup "myproject" [selfRefReq] devMap).1,
   (flatten_extra_terminates_nodup "myproject" [selfRefReq] devMap).2.1
     [pepReq] ["dev"] (by rfl),
   (flatten_extra_terminates_nodup "myproject" [refAReq] mutualMap).2.1
     [tomliReq] ["a", "b"] (by rfl),
   (flatten_extra_terminates_nodup "myproject" [selfRefReq] devMap).2.2
     5 "dev" [] ["dev"] (by decide)⟩

end UvReqs
